import Mathlib

/-
Verification development for the knowledge-base retrieval engine of the
poornasree_ai repository. The definitions below are a shallow embedding of
app/services/ai_service.py: Python strings are modelled as `List Char`,
Python floats as `ℚ`, the embedding model as an abstract parameter, and the
in-memory service state (`self.documents`, `self.embeddings`) as a `Store`.
-/

/-- Model of Python `str.lower` applied to a text. -/
def lowerStr (l : List Char) : List Char := l.map Char.toLower

/-- Removal of leading whitespace, one half of Python `str.strip()`. -/
def stripLead (l : List Char) : List Char := l.dropWhile Char.isWhitespace

/-- Model of Python `str.strip()`: removes leading and trailing whitespace. -/
def strip (l : List Char) : List Char :=
  ((stripLead l).reverse.dropWhile Char.isWhitespace).reverse

/-- Accumulator form of Python `str.split()` with no separator argument:
runs of whitespace separate the words and empty pieces are dropped. -/
def wordsAux : List Char → List Char → List (List Char)
  | [], acc => if acc = [] then [] else [acc.reverse]
  | c :: rest, acc =>
    if c.isWhitespace then
      if acc = [] then wordsAux rest [] else acc.reverse :: wordsAux rest []
    else wordsAux rest (c :: acc)

/-- Model of Python `str.split()` with no separator argument. -/
def words (l : List Char) : List (List Char) := wordsAux l []

/-- Bool test that the first list is an initial segment of the second. -/
def prefAt : List Char → List Char → Bool
  | [], _ => true
  | _ :: _, [] => false
  | c :: w, d :: v => c == d && prefAt w v

/-- Model of the Python substring test `w in l` on strings: `w` occurs
contiguously somewhere inside `l`. -/
def containsSub (l w : List Char) : Bool :=
  (List.range (l.length + 1)).any (fun i => prefAt w (l.drop i))

/-- Stage 1 of `_preprocess_text`: the substitution collapsing every maximal
whitespace run to a single space character. The flag records whether the
previous character was part of a whitespace run. -/
def collapseWsAux : Bool → List Char → List Char
  | _, [] => []
  | prevWs, c :: rest =>
    if c.isWhitespace then
      if prevWs then collapseWsAux true rest else ' ' :: collapseWsAux true rest
    else c :: collapseWsAux false rest

/-- Stage 1 of `_preprocess_text` (ai_service.py line 238). -/
def collapseWs (l : List Char) : List Char := collapseWsAux false l

/-- The character class kept by stage 2 of `_preprocess_text`: word
characters, whitespace and the listed punctuation. -/
def allowedChar (c : Char) : Bool :=
  c.isAlphanum || c == '_' || c.isWhitespace ||
    ['.', ',', ';', ':', '!', '?', '-', '(', ')', '[', ']', '"',
      Char.ofNat 39, '/'].contains c

/-- Stage 2 of `_preprocess_text` (ai_service.py line 241). -/
def removeSpecial (l : List Char) : List Char := l.filter allowedChar

/-- Stage 3 of `_preprocess_text`: collapse runs of newline characters. -/
def collapseNlAux : Bool → List Char → List Char
  | _, [] => []
  | prevNl, c :: rest =>
    if c == '\n' then
      if prevNl then collapseNlAux true rest else '\n' :: collapseNlAux true rest
    else c :: collapseNlAux false rest

/-- Stage 3 of `_preprocess_text` (ai_service.py line 244). -/
def collapseNl (l : List Char) : List Char := collapseNlAux false l

/-- Split on the newline character, keeping empty pieces, as Python
`text.split(chr(10))` does. -/
def splitNlAux : List Char → List Char → List (List Char)
  | [], acc => [acc.reverse]
  | c :: rest, acc =>
    if c == '\n' then acc.reverse :: splitNlAux rest []
    else splitNlAux rest (c :: acc)

/-- Model of `_preprocess_text` (ai_service.py lines 235-250): collapse
whitespace, drop disallowed characters, collapse newlines, drop lines whose
stripped form has length at most 3, and strip the joined result. -/
def preprocess (text : List Char) : List Char :=
  let t1 := collapseWs text
  let t2 := removeSpecial t1
  let t3 := collapseNl t2
  let lines := ((splitNlAux t3 []).map strip).filter (fun ln => 3 < ln.length)
  strip (List.intercalate ['\n'] lines)

/-- The configured chunk size, `self.chunk_size = 500` (ai_service.py line 40). -/
def chunkSize : Nat := 500

/-- The configured chunk overlap, `self.chunk_overlap = 50` (ai_service.py line 41). -/
def chunkOverlap : Nat := 50

/-- Model of Python `text.rfind(ch, b, e)` restricted to the found case: the
largest index `i` with `b ≤ i < e` and `text[i] = ch`, if any. -/
def rfindChar (text : List Char) (ch : Char) (b e : Nat) : Option Nat :=
  ((List.range text.length).filter
    (fun i => decide (b ≤ i) && decide (i < e) && (text.getD i ' ' == ch))).getLast?

/-- The cut position chosen by `_chunk_text` for the window beginning at
`start` (ai_service.py lines 120-132): the hard boundary `start + size`,
moved back to just after the last sentence terminator past the window
midpoint, or failing that to the last newline past the midpoint. The
Python `rfind` result `-1` is modelled by `Option.getD 0`, which fails the
`> start + size // 2` test exactly as `-1` does. -/
def chunkEnd (text : List Char) (start : Nat) : Nat :=
  if start + chunkSize < text.length then
    if start + chunkSize / 2 < (rfindChar text '.' start (start + chunkSize)).getD 0 then
      (rfindChar text '.' start (start + chunkSize)).getD 0 + 1
    else
      if start + chunkSize / 2 < (rfindChar text '\n' start (start + chunkSize)).getD 0 then
        (rfindChar text '\n' start (start + chunkSize)).getD 0
      else start + chunkSize
  else start + chunkSize

/-- Fuel-indexed model of the `while start < len(text)` loop of `_chunk_text`
(ai_service.py lines 119-138): slice the window, strip it, keep it when
non-empty, and advance the window start to `end - overlap`. `none` reports
that the fuel ran out before the loop finished. -/
def chunkLoopFuel : Nat → List Char → Nat → Option (List (List Char))
  | 0, _, _ => none
  | fuel + 1, text, start =>
    if start < text.length then
      match chunkLoopFuel fuel text (chunkEnd text start - chunkOverlap) with
      | none => none
      | some rest =>
        if strip ((text.drop start).take (chunkEnd text start - start)) = [] then some rest
        else some (strip ((text.drop start).take (chunkEnd text start - start)) :: rest)
    else some []

/-- Model of `_chunk_text` (ai_service.py lines 111-140). Texts no longer
than the chunk size are returned whole; otherwise the windowed loop runs,
with fuel `length + 1`, which `claim_C6` proves sufficient. -/
def chunkText (text : List Char) : List (List Char) :=
  if text.length ≤ chunkSize then [text]
  else (chunkLoopFuel (text.length + 1) text 0).getD []

/-- An element returned by `getLast?` is a member of the list. -/
theorem mem_of_getLastOpt {α : Type} : ∀ {l : List α} {a : α},
    l.getLast? = some a → a ∈ l
  | [], a, h => by simp at h
  | [x], a, h => by
      simp [List.getLast?] at h
      simp [h]
  | x :: y :: ys, a, h => by
      rw [List.getLast?_cons_cons] at h
      exact List.mem_cons_of_mem _ (mem_of_getLastOpt h)

/-- A found `rfindChar` index lies in the requested half-open range. -/
theorem rfindChar_range {text : List Char} {ch : Char} {b e s : Nat}
    (h : rfindChar text ch b e = some s) : b ≤ s ∧ s < e := by
  unfold rfindChar at h
  have hmem := mem_of_getLastOpt h
  have := (List.mem_filter.mp hmem).2
  simp only [Bool.and_eq_true, decide_eq_true_eq] at this
  exact ⟨this.1.1, this.1.2⟩

/-- The chosen cut position always lies strictly past the window midpoint and
never beyond the hard boundary `start + 500`. -/
theorem chunkEnd_bounds (text : List Char) (start : Nat) :
    start + 250 < chunkEnd text start ∧ chunkEnd text start ≤ start + 500 := by
  unfold chunkEnd chunkSize
  norm_num
  by_cases h0 : start + 500 < text.length
  · rw [if_pos h0]
    cases hs : rfindChar text '.' start (start + 500) with
    | none =>
      simp only [hs, Option.getD_none]
      rw [if_neg (by omega)]
      cases hp : rfindChar text '\n' start (start + 500) with
      | none =>
        simp only [hp, Option.getD_none]
        rw [if_neg (by omega)]
        omega
      | some p =>
        have hpr := rfindChar_range hp
        simp only [hp, Option.getD_some]
        split <;> omega
    | some s =>
      have hsr := rfindChar_range hs
      simp only [hs, Option.getD_some]
      by_cases hcond : start + 250 < s
      · rw [if_pos hcond]; omega
      · rw [if_neg hcond]
        cases hp : rfindChar text '\n' start (start + 500) with
        | none =>
          simp only [hp, Option.getD_none]
          rw [if_neg (by omega)]
          omega
        | some p =>
          have hpr := rfindChar_range hp
          simp only [hp, Option.getD_some]
          split <;> omega
  · rw [if_neg h0]; omega

/-- Dropping a satisfying run never lengthens a list. -/
theorem dropWhile_length_le {α : Type} (p : α → Bool) :
    ∀ l : List α, (l.dropWhile p).length ≤ l.length := by
  intro l
  induction l with
  | nil => simp
  | cons c rest ih =>
    rw [List.dropWhile_cons]
    split
    · exact le_trans ih (by simp)
    · simp

/-- Stripping never lengthens a text. -/
theorem strip_length_le (l : List Char) : (strip l).length ≤ l.length := by
  unfold strip stripLead
  calc (((l.dropWhile Char.isWhitespace).reverse.dropWhile Char.isWhitespace).reverse).length
      = ((l.dropWhile Char.isWhitespace).reverse.dropWhile Char.isWhitespace).length := by
        rw [List.length_reverse]
    _ ≤ (l.dropWhile Char.isWhitespace).reverse.length :=
        dropWhile_length_le _ _
    _ = (l.dropWhile Char.isWhitespace).length := by rw [List.length_reverse]
    _ ≤ l.length := dropWhile_length_le _ _

/-- Every chunk a successful loop run emits is non-empty and at most 500
characters long. -/
theorem chunkLoopFuel_bound :
    ∀ (fuel : Nat) (text : List Char) (start : Nat) (r : List (List Char)),
      chunkLoopFuel fuel text start = some r →
      ∀ c ∈ r, c ≠ [] ∧ c.length ≤ 500 := by
  intro fuel
  induction fuel with
  | zero => intro text start r h; simp [chunkLoopFuel] at h
  | succ n ih =>
    intro text start r h c hc
    rw [chunkLoopFuel] at h
    by_cases hs : start < text.length
    · rw [if_pos hs] at h
      cases hrec : chunkLoopFuel n text (chunkEnd text start - chunkOverlap) with
      | none => rw [hrec] at h; simp at h
      | some rest =>
        rw [hrec] at h
        dsimp only at h
        by_cases hch : strip ((text.drop start).take (chunkEnd text start - start)) = []
        · rw [if_pos hch] at h
          have hre := Option.some.inj h
          subst hre
          exact ih text _ rest hrec c hc
        · rw [if_neg hch] at h
          have hre := Option.some.inj h
          subst hre
          rcases List.mem_cons.mp hc with hc | hc
          · subst hc
            refine ⟨hch, ?_⟩
            calc (strip ((text.drop start).take (chunkEnd text start - start))).length
                ≤ ((text.drop start).take (chunkEnd text start - start)).length :=
                  strip_length_le _
              _ ≤ chunkEnd text start - start := List.length_take_le _ _
              _ ≤ 500 := by have := chunkEnd_bounds text start; omega
          · exact ih text _ rest hrec c hc
    · rw [if_neg hs] at h
      have hre := Option.some.inj h
      subst hre
      exact absurd hc (by simp)

/-- Claim C5: if the input text has length at most the configured chunk size
500, chunking returns the single-element list holding the text unchanged;
if the text is longer, every returned chunk is non-empty (the code having
stripped it already) and has length at most 500 — even stronger than the
claimed `size + small_slack` bound, with no exceptional chunk. -/
theorem claim_C5 (text : List Char) :
    (text.length ≤ 500 → chunkText text = [text]) ∧
    (500 < text.length → ∀ c ∈ chunkText text, c ≠ [] ∧ c.length ≤ 500) := by
  constructor
  · intro h
    unfold chunkText chunkSize
    rw [if_pos h]
  · intro h c hc
    unfold chunkText chunkSize at hc
    rw [if_neg (by omega)] at hc
    cases hr : chunkLoopFuel (text.length + 1) text 0 with
    | none => rw [hr] at hc; exact absurd hc (by simp)
    | some r =>
      rw [hr] at hc
      exact chunkLoopFuel_bound _ _ _ _ hr c hc

/-- A text used below to exercise the splitting branch of the chunker. -/
def longText : List Char := List.replicate 501 'a'

set_option maxRecDepth 40000 in
/-- Witness for claim C5 at concrete inputs: a three-character text is
returned whole, and the first chunk of a 501-character text is non-empty and
within the 500-character bound. -/
theorem claim_C5_witness :
    chunkText (['a', 'b', 'c']) = [['a', 'b', 'c']] ∧
    (List.replicate 500 'a' ≠ [] ∧ (List.replicate 500 'a').length ≤ 500) :=
  ⟨(claim_C5 (['a', 'b', 'c'])).1 (by decide),
   (claim_C5 longText).2 (by unfold longText; rw [List.length_replicate]; omega)
     (List.replicate 500 'a') (by decide)⟩

/-- With fuel exceeding the remaining text length, the chunking loop always
finishes. -/
theorem chunkLoopFuel_isSome :
    ∀ (fuel : Nat) (text : List Char) (start : Nat),
      text.length - start < fuel → (chunkLoopFuel fuel text start).isSome := by
  intro fuel
  induction fuel with
  | zero => intro text start h; omega
  | succ n ih =>
    intro text start h
    rw [chunkLoopFuel]
    by_cases hs : start < text.length
    · rw [if_pos hs]
      have hb := chunkEnd_bounds text start
      have hnext : (chunkLoopFuel n text (chunkEnd text start - chunkOverlap)).isSome :=
        ih text _ (by unfold chunkOverlap; omega)
      cases hrec : chunkLoopFuel n text (chunkEnd text start - chunkOverlap) with
      | none => rw [hrec] at hnext; exact absurd hnext (by simp)
      | some rest =>
        dsimp only
        split <;> simp
    · rw [if_neg hs]; simp

/-- Claim C6: the chunking loop terminates on every input text, including
pathological all-whitespace or terminator-free ones, because the window
start strictly advances on every iteration (the next start `end - overlap`
is strictly beyond the current one); concretely, the loop with fuel
`length + 1` never exhausts its fuel. -/
theorem claim_C6 (text : List Char) :
    (∀ start : Nat, start < chunkEnd text start - chunkOverlap) ∧
    (chunkLoopFuel (text.length + 1) text 0).isSome := by
  constructor
  · intro start
    have := chunkEnd_bounds text start
    unfold chunkOverlap
    omega
  · exact chunkLoopFuel_isSome _ _ _ (by omega)

/-- Vectors produced by the embedding model; floats are modelled as
rationals and the model itself stays an abstract parameter. -/
abbrev Vec := List ℚ

/-- The derived metadata stored with a document by `add_document`
(ai_service.py lines 211-217). Caller-supplied fields beyond the filename
influence nothing modelled here, so only the filename is kept verbatim. -/
structure DocMeta where
  filename : List Char
  word_count : Nat
  char_count : Nat
  chunk_count : Nat
deriving DecidableEq

/-- A `doc_entry` of the knowledge base (ai_service.py lines 208-221). -/
structure Document where
  text : List Char
  chunks : List (List Char)
  metadata : DocMeta
  id : Nat
  embeddings : List Vec
deriving DecidableEq

/-- The service state the claims touch: `self.documents` and the legacy
parallel list `self.embeddings` (ai_service.py lines 36-37). -/
structure Store where
  documents : List Document
  embeddings : List Vec
deriving DecidableEq

/-- A result dict of `_keyword_search` / `_embedding_search` (ai_service.py
lines 607-613 and 646-654). The keyword path's extra keys `exact_matches`
and `partial_matches` (the latter here named `part_matches`) are 0 on the
embedding path, which does not set them. -/
structure RetrievalResult where
  text : List Char
  metadata : DocMeta
  score : ℚ
  document_id : Nat
  chunk_id : Nat
  exact_matches : Nat
  part_matches : Nat
deriving DecidableEq

/-- The deduplicated query word set `set(query.lower().split())`
(ai_service.py line 625); only size and membership of the set matter, so a
duplicate-free list models it faithfully. -/
def queryWords (q : List Char) : List (List Char) := (words (lowerStr q)).dedup

/-- `exact_matches` (ai_service.py line 635): how many query words occur as
a substring anywhere in the lowercased chunk. -/
def exactMatchCount (qws : List (List Char)) (cl : List Char) : Nat :=
  qws.countP (fun w => containsSub cl w)

/-- `partial_matches` (ai_service.py lines 636-637): how many query words
occur as a substring of some whitespace token of the lowercased chunk. -/
def partMatchCount (qws : List (List Char)) (cl : List Char) : Nat :=
  qws.countP (fun w => (words cl).any (fun t => containsSub t w))

/-- The keyword score of one chunk (ai_service.py lines 631-643):
`(exact * 2 + partial + phrase_bonus) / (len(query_words) + 1)` with a 0.5
bonus when the whole lowercased query occurs inside the chunk. -/
def chunkScore (q : List Char) (chunk : List Char) : ℚ :=
  ((exactMatchCount (queryWords q) (lowerStr chunk) : ℚ) * 2 +
    (partMatchCount (queryWords q) (lowerStr chunk) : ℚ) +
    (if containsSub (lowerStr chunk) (lowerStr q) then (1 : ℚ)/2 else 0)) /
  (((queryWords q).length : ℚ) + 1)

/-- Insertion after every element of strictly larger score; together with
`sortDesc` this models the stable descending sort that
`results.sort(key=lambda x: x["score"], reverse=True)` performs. -/
def insertDesc (r : RetrievalResult) : List RetrievalResult → List RetrievalResult
  | [] => [r]
  | x :: xs => if x.score ≤ r.score then r :: x :: xs else x :: insertDesc r xs

/-- Stable sort by non-increasing `score` (Python `list.sort` is stable,
also with `reverse=True`). -/
def sortDesc : List RetrievalResult → List RetrievalResult
  | [] => []
  | x :: xs => insertDesc x (sortDesc xs)

/-- Membership is preserved by `insertDesc`. -/
theorem insertDesc_mem (r a : RetrievalResult) :
    ∀ l : List RetrievalResult, a ∈ insertDesc r l ↔ a = r ∨ a ∈ l := by
  intro l
  induction l with
  | nil => simp [insertDesc]
  | cons x xs ih =>
    rw [insertDesc]
    split
    · simp
    · simp only [List.mem_cons, ih]
      tauto

/-- Membership is preserved by `sortDesc`. -/
theorem sortDesc_mem (a : RetrievalResult) :
    ∀ l : List RetrievalResult, a ∈ sortDesc l ↔ a ∈ l := by
  intro l
  induction l with
  | nil => simp [sortDesc]
  | cons x xs ih =>
    rw [sortDesc, insertDesc_mem]
    simp [ih]

/-- `insertDesc` keeps the list sorted by non-increasing score. -/
theorem insertDesc_pairwise (r : RetrievalResult) :
    ∀ l : List RetrievalResult,
      l.Pairwise (fun a b => b.score ≤ a.score) →
      (insertDesc r l).Pairwise (fun a b => b.score ≤ a.score) := by
  intro l
  induction l with
  | nil => intro _; simp [insertDesc]
  | cons x xs ih =>
    intro hp
    rcases List.pairwise_cons.mp hp with ⟨hx, hxs⟩
    rw [insertDesc]
    split
    · next hle =>
      refine List.pairwise_cons.mpr ⟨?_, hp⟩
      intro b hb
      rcases List.mem_cons.mp hb with rfl | hb
      · exact hle
      · exact le_trans (hx b hb) hle
    · next hgt =>
      refine List.pairwise_cons.mpr ⟨?_, ih hxs⟩
      intro b hb
      rcases (insertDesc_mem r b xs).mp hb with rfl | hb
      · exact le_of_not_le hgt
      · exact hx b hb

/-- The sorted list is ordered by non-increasing score. -/
theorem sortDesc_pairwise :
    ∀ l : List RetrievalResult,
      (sortDesc l).Pairwise (fun a b => b.score ≤ a.score) := by
  intro l
  induction l with
  | nil => simp [sortDesc]
  | cons x xs ih =>
    rw [sortDesc]
    exact insertDesc_pairwise x _ ih

/-- Filtering at a fixed score commutes with `insertDesc`: the skipped
elements all have strictly larger score. -/
theorem insertDesc_filter (r : RetrievalResult) (c : ℚ) :
    ∀ l : List RetrievalResult,
      (insertDesc r l).filter (fun x => decide (x.score = c)) =
        if r.score = c then r :: l.filter (fun x => decide (x.score = c))
        else l.filter (fun x => decide (x.score = c)) := by
  intro l
  induction l with
  | nil =>
    rw [insertDesc]
    by_cases hr : r.score = c
    · simp [List.filter, hr]
    · simp [List.filter, hr]
  | cons x xs ih =>
    rw [insertDesc]
    by_cases hle : x.score ≤ r.score
    · rw [if_pos hle]
      by_cases hr : r.score = c
      · rw [List.filter_cons, if_pos (by simp [hr]), if_pos hr]
      · rw [List.filter_cons, if_neg (by simp [hr]), if_neg hr]
    · rw [if_neg hle]
      by_cases hrc : r.score = c
      · have hxc : ¬ x.score = c := fun hxc => hle (le_of_eq (hxc.trans hrc.symm))
        rw [List.filter_cons, if_neg (by simp [hxc]), ih, if_pos hrc, if_pos hrc,
          List.filter_cons, if_neg (by simp [hxc])]
      · rw [List.filter_cons, ih, if_neg hrc, if_neg hrc, List.filter_cons]

/-- Stability of `sortDesc`: the subsequence of any fixed score is
unchanged, so equal-score elements keep their original relative order. -/
theorem sortDesc_filter (c : ℚ) :
    ∀ l : List RetrievalResult,
      (sortDesc l).filter (fun x => decide (x.score = c)) =
        l.filter (fun x => decide (x.score = c)) := by
  intro l
  induction l with
  | nil => rfl
  | cons x xs ih =>
    rw [sortDesc, insertDesc_filter, List.filter_cons]
    by_cases hx : x.score = c
    · rw [if_pos hx, if_pos (by simp [hx]), ih]
    · rw [if_neg hx, if_neg (by simp [hx]), ih]

/-- The scored results one document's chunks contribute on the keyword path
(the inner loop of `_keyword_search`, ai_service.py lines 631-654); `i` is
the running chunk index and scores at or below 0.1 are dropped. -/
def scoredKw (q : List Char) (meta : DocMeta) (did : Nat) :
    Nat → List (List Char) → List RetrievalResult
  | _, [] => []
  | i, ch :: rest =>
    (if (1 : ℚ)/10 < chunkScore q ch then
      [{ text := ch, metadata := meta, score := chunkScore q ch,
         document_id := did, chunk_id := i,
         exact_matches := exactMatchCount (queryWords q) (lowerStr ch),
         part_matches := partMatchCount (queryWords q) (lowerStr ch) }]
     else []) ++ scoredKw q meta did (i + 1) rest

/-- All keyword-path candidates, in document-insertion order and chunk order
within each document: the list `_keyword_search` builds before sorting. -/
def keywordCands (q : List Char) (docs : List Document) : List RetrievalResult :=
  docs.flatMap (fun d => scoredKw q d.metadata d.id 0 d.chunks)

/-- Model of `_keyword_search` (ai_service.py lines 623-658). -/
def keywordSearch (q : List Char) (k : Nat) (docs : List Document) :
    List RetrievalResult :=
  (sortDesc (keywordCands q docs)).take k

/-- The scored results one document's (chunk, vector) pairs contribute on
the vector path (the inner loop of `_embedding_search`, ai_service.py lines
605-613); `sim` is cosine similarity against the fixed query embedding and
similarities at or below 0.1 are dropped. -/
def scoredEmb (sim : Vec → ℚ) (meta : DocMeta) (did : Nat) :
    Nat → List (List Char × Vec) → List RetrievalResult
  | _, [] => []
  | i, cv :: rest =>
    (if (1 : ℚ)/10 < sim cv.2 then
      [{ text := cv.1, metadata := meta, score := sim cv.2,
         document_id := did, chunk_id := i, exact_matches := 0, part_matches := 0 }]
     else []) ++ scoredEmb sim meta did (i + 1) rest

/-- The vector-path candidates one document contributes (ai_service.py lines
592-613): a document with no stored vectors, or whose chunk count disagrees
with its vector count, contributes nothing at all. -/
def embDocCands (sim : Vec → ℚ) (d : Document) : List RetrievalResult :=
  if d.embeddings = [] then []
  else if d.chunks.length = d.embeddings.length then
    scoredEmb sim d.metadata d.id 0 (d.chunks.zip d.embeddings)
  else []

/-- All vector-path candidates in document order. -/
def embCands (sim : Vec → ℚ) (docs : List Document) : List RetrievalResult :=
  docs.flatMap (embDocCands sim)

/-- Model of `_embedding_search` (ai_service.py lines 580-621), with the
query embedding and cosine similarity abstracted into `sim`. -/
def embeddingSearch (sim : Vec → ℚ) (k : Nat) (docs : List Document) :
    List RetrievalResult :=
  (sortDesc (embCands sim docs)).take k

/-- Claim C3: for every store state, query and `top_k`, both retrieval paths
return at most `top_k` results ordered by non-increasing score, and results
of equal score keep their original candidate order — document insertion
order first, then chunk index — because the sort is stable: the filtered
candidate list (built in that original order) extends each filtered result
list. -/
theorem claim_C3 (docs : List Document) (q : List Char) (k : Nat) (sim : Vec → ℚ) :
    (keywordSearch q k docs).length ≤ k ∧
    (keywordSearch q k docs).Pairwise (fun a b => b.score ≤ a.score) ∧
    (∀ c : ℚ, ∃ t, (keywordCands q docs).filter (fun x => decide (x.score = c)) =
      (keywordSearch q k docs).filter (fun x => decide (x.score = c)) ++ t) ∧
    (embeddingSearch sim k docs).length ≤ k ∧
    (embeddingSearch sim k docs).Pairwise (fun a b => b.score ≤ a.score) ∧
    (∀ c : ℚ, ∃ t, (embCands sim docs).filter (fun x => decide (x.score = c)) =
      (embeddingSearch sim k docs).filter (fun x => decide (x.score = c)) ++ t) := by
  refine ⟨List.length_take_le _ _, ?_, ?_, List.length_take_le _ _, ?_, ?_⟩
  · exact (sortDesc_pairwise _).sublist (List.take_sublist _ _)
  · intro c
    refine ⟨((sortDesc (keywordCands q docs)).drop k).filter
      (fun x => decide (x.score = c)), ?_⟩
    rw [keywordSearch, ← List.filter_append, List.take_append_drop, sortDesc_filter]
  · exact (sortDesc_pairwise _).sublist (List.take_sublist _ _)
  · intro c
    refine ⟨((sortDesc (embCands sim docs)).drop k).filter
      (fun x => decide (x.score = c)), ?_⟩
    rw [embeddingSearch, ← List.filter_append, List.take_append_drop, sortDesc_filter]

/-- Shape of the results `scoredEmb` emits: metadata and document id come
from the owning document, and the text is the first component of one of the
zipped (chunk, vector) pairs. -/
theorem scoredEmb_mem (sim : Vec → ℚ) (meta : DocMeta) (did : Nat) :
    ∀ (i : Nat) (pairs : List (List Char × Vec)) (r : RetrievalResult),
      r ∈ scoredEmb sim meta did i pairs →
      r.metadata = meta ∧ r.document_id = did ∧
      ∃ cv ∈ pairs, r.text = cv.1 ∧ r.score = sim cv.2 := by
  intro i pairs
  induction pairs generalizing i with
  | nil => intro r hr; simp [scoredEmb] at hr
  | cons cv rest ih =>
    intro r hr
    rw [scoredEmb] at hr
    rcases List.mem_append.mp hr with hr | hr
    · split at hr
      · rcases List.mem_singleton.mp hr with rfl
        exact ⟨rfl, rfl, cv, List.mem_cons_self cv rest, rfl, rfl⟩
      · simp at hr
    · rcases ih (i + 1) r hr with ⟨h1, h2, cv2, hcv2, h3⟩
      exact ⟨h1, h2, cv2, List.mem_cons_of_mem _ hcv2, h3⟩

/-- Claim C4: on the vector path, a document whose chunk count and stored
vector count disagree (or which has no vectors at all) contributes no
results to the search — every returned result arises from a document whose
counts agree — while every well-formed document is still searched: each of
its candidate results enters the overall candidate pool. The search is a
total function of its inputs, so it completes for every store state. -/
theorem claim_C4 (sim : Vec → ℚ) (docs : List Document) (k : Nat) :
    (∀ r ∈ embeddingSearch sim k docs, ∃ d, d ∈ docs ∧ d.embeddings ≠ [] ∧
      d.chunks.length = d.embeddings.length ∧ r.metadata = d.metadata ∧
      r.document_id = d.id ∧ r.text ∈ d.chunks) ∧
    (∀ d ∈ docs, d.embeddings ≠ [] → d.chunks.length = d.embeddings.length →
      ∀ r ∈ embDocCands sim d, r ∈ embCands sim docs) := by
  constructor
  · intro r hr
    have hr1 : r ∈ sortDesc (embCands sim docs) := List.mem_of_mem_take hr
    have hr2 : r ∈ embCands sim docs := (sortDesc_mem r _).mp hr1
    rcases List.mem_flatMap.mp hr2 with ⟨d, hd, hrd⟩
    refine ⟨d, hd, ?_⟩
    unfold embDocCands at hrd
    by_cases he : d.embeddings = []
    · rw [if_pos he] at hrd; simp at hrd
    · rw [if_neg he] at hrd
      by_cases hlen : d.chunks.length = d.embeddings.length
      · rw [if_pos hlen] at hrd
        rcases scoredEmb_mem sim d.metadata d.id 0 _ r hrd with ⟨h1, h2, cv, hcv, h3, _⟩
        refine ⟨he, hlen, h1, h2, ?_⟩
        rw [h3]
        rcases cv with ⟨ch, v⟩
        exact (List.of_mem_zip hcv).1
      · rw [if_neg hlen] at hrd; simp at hrd
  · intro d hd _ _ r hr
    exact List.mem_flatMap.mpr ⟨d, hd, hr⟩

/-- A constant similarity used to exercise the vector path concretely. -/
def simOne : Vec → ℚ := fun _ => 1

/-- A document whose chunk count matches its vector count. -/
def goodDoc : Document :=
  { text := "spindle speed".toList, chunks := ["spindle speed".toList],
    metadata := { filename := "m1.txt".toList, word_count := 2,
                  char_count := 13, chunk_count := 1 },
    id := 1, embeddings := [[1, 0]] }

/-- A corrupted document: two chunks but a single stored vector. -/
def badDoc : Document :=
  { text := "corrupted twice".toList,
    chunks := ["corrupted".toList, "twice".toList],
    metadata := { filename := "m2.txt".toList, word_count := 2,
                  char_count := 15, chunk_count := 2 },
    id := 2, embeddings := [[0, 1]] }

/-- The result the well-formed document contributes under `simOne`. -/
def goodResult : RetrievalResult :=
  { text := "spindle speed".toList, metadata := goodDoc.metadata, score := 1,
    document_id := 1, chunk_id := 0, exact_matches := 0, part_matches := 0 }

/-- Witness for claim C4: in a store holding one well-formed and one
corrupted document, the well-formed document's candidate result reaches the
candidate pool. -/
theorem claim_C4_witness : goodResult ∈ embCands simOne [goodDoc, badDoc] := by
  have h : goodResult ∈ embDocCands simOne goodDoc := by
    norm_num [embDocCands, goodDoc, goodResult, scoredEmb, simOne,
      List.zip_cons_cons, List.zip_nil_right]
  exact (claim_C4 simOne [goodDoc, badDoc] 5).2 goodDoc
    (List.mem_cons_self goodDoc [badDoc]) (by simp [goodDoc]) (by simp [goodDoc])
    goodResult h

/-- Specification of the initial-segment test `prefAt`. -/
theorem prefAt_iff : ∀ (w v : List Char), prefAt w v = true ↔ ∃ u, v = w ++ u := by
  intro w
  induction w with
  | nil => intro v; simp [prefAt]
  | cons c w ih =>
    intro v
    cases v with
    | nil => simp [prefAt]
    | cons d v =>
      rw [prefAt]
      simp only [Bool.and_eq_true, beq_iff_eq]
      constructor
      · rintro ⟨rfl, h⟩
        rcases (ih v).mp h with ⟨u, rfl⟩
        exact ⟨u, rfl⟩
      · rintro ⟨u, hu⟩
        rw [List.cons_append] at hu
        injection hu with h1 h2
        exact ⟨h1.symm, (ih v).mpr ⟨u, h2⟩⟩

/-- Specification of the substring test: `containsSub l w` holds exactly
when `w` occurs contiguously somewhere inside `l`. -/
theorem containsSub_iff (l w : List Char) :
    containsSub l w = true ↔ ∃ s t, l = s ++ w ++ t := by
  unfold containsSub
  rw [List.any_eq_true]
  constructor
  · rintro ⟨i, _, hp⟩
    rcases (prefAt_iff w (l.drop i)).mp hp with ⟨u, hu⟩
    refine ⟨l.take i, u, ?_⟩
    conv_lhs => rw [← List.take_append_drop i l, hu]
    rw [List.append_assoc]
  · rintro ⟨s, t, rfl⟩
    refine ⟨s.length, ?_, ?_⟩
    · rw [List.mem_range]
      simp [List.length_append]
      omega
    · have hd : (s ++ w ++ t).drop s.length = w ++ t := by
        rw [List.append_assoc, List.drop_left]
      rw [hd]
      exact (prefAt_iff w (w ++ t)).mpr ⟨t, rfl⟩

/-- Every word `wordsAux` produces occurs contiguously in the text it was
split from (prefixed by the pending accumulator). -/
theorem wordsAux_sub :
    ∀ (l acc w : List Char), w ∈ wordsAux l acc →
      ∃ s t, acc.reverse ++ l = s ++ w ++ t := by
  intro l
  induction l with
  | nil =>
    intro acc w hw
    rw [wordsAux] at hw
    split at hw
    · simp at hw
    · rcases List.mem_singleton.mp hw with rfl
      exact ⟨[], [], by simp⟩
  | cons c rest ih =>
    intro acc w hw
    rw [wordsAux] at hw
    by_cases hc : c.isWhitespace
    · rw [if_pos hc] at hw
      by_cases ha : acc = []
      · rw [if_pos ha] at hw
        rcases ih [] w hw with ⟨s, t, hst⟩
        simp only [List.reverse_nil, List.nil_append] at hst
        subst ha
        exact ⟨c :: s, t, by simp [hst]⟩
      · rw [if_neg ha] at hw
        rcases List.mem_cons.mp hw with rfl | hw
        · exact ⟨[], c :: rest, by simp⟩
        · rcases ih [] w hw with ⟨s, t, hst⟩
          simp only [List.reverse_nil, List.nil_append] at hst
          exact ⟨acc.reverse ++ c :: s, t, by rw [hst]; simp⟩
    · rw [if_neg hc] at hw
      rcases ih (c :: acc) w hw with ⟨s, t, hst⟩
      rw [List.reverse_cons, List.append_assoc] at hst
      exact ⟨s, t, by simpa using hst⟩

/-- Every word of `words cl` occurs contiguously in `cl`. -/
theorem words_sub (cl w : List Char) (hw : w ∈ words cl) :
    ∃ s t, cl = s ++ w ++ t := by
  rcases wordsAux_sub cl [] w hw with ⟨s, t, hst⟩
  simp only [List.reverse_nil, List.nil_append] at hst
  exact ⟨s, t, hst⟩

/-- Claim C10 (implicit): on the lexical path a query word is counted as an
exact match whenever it occurs as a substring anywhere in the lowercased
chunk text (the `containsSub` characterization), not only as a whole word;
consequently the partial-substring-match count — which demands the word
inside a single whitespace token of the chunk — never exceeds the
exact-match count, for every query word list and every chunk. -/
theorem claim_C10 (w cl : List Char) (qws : List (List Char)) :
    (containsSub cl w = true ↔ ∃ s t, cl = s ++ w ++ t) ∧
    partMatchCount qws cl ≤ exactMatchCount qws cl := by
  constructor
  · exact containsSub_iff cl w
  · unfold partMatchCount exactMatchCount
    refine List.countP_mono_left ?_
    intro x _ hpx
    rcases List.any_eq_true.mp hpx with ⟨tok, htok, hsub⟩
    rcases (containsSub_iff tok x).mp hsub with ⟨s1, t1, ht1⟩
    rcases words_sub cl tok htok with ⟨s2, t2, ht2⟩
    refine (containsSub_iff cl x).mpr ⟨s2 ++ s1, t1 ++ t2, ?_⟩
    rw [ht2, ht1]
    simp [List.append_assoc]

/-- The interrogative markers `_calculate_confidence` checks for its
question bonus (ai_service.py line 555). -/
def questionWords : List (List Char) :=
  ["how".toList, "what".toList, "where".toList]

/-- Round half to even at the integer scale, as Python `round` does; Python
floats are modelled by exact rationals. -/
def roundHalfEven (q : ℚ) : ℤ :=
  if q - ⌊q⌋ < 1/2 then ⌊q⌋
  else if 1/2 < q - ⌊q⌋ then ⌊q⌋ + 1
  else if ⌊q⌋ % 2 = 0 then ⌊q⌋ else ⌊q⌋ + 1

/-- Model of Python `round(x, 2)`. -/
def round2 (q : ℚ) : ℚ := (roundHalfEven (q * 100) : ℚ) / 100

/-- Model of `_calculate_confidence` (ai_service.py lines 542-558): floor
0.1 without results; otherwise the top result's score, plus a document-count
bonus capped at 0.3, plus 0.1 when the message contains an interrogative
marker, clamped at 0.95 and rounded to two decimals. -/
def calcConfidence : List Char → List RetrievalResult → ℚ
  | _, [] => 1/10
  | message, top :: rest =>
    round2 (min (top.score +
      min (((top :: rest).length : ℚ) * (1/10)) (3/10) +
      (if questionWords.any (fun w => containsSub (lowerStr message) w) then (1 : ℚ)/10
       else 0)) (95/100))

/-- `roundHalfEven` never rounds past an integer upper bound. -/
theorem roundHalfEven_le {q : ℚ} {n : ℤ} (hq : q ≤ (n : ℚ)) : roundHalfEven q ≤ n := by
  have hfl : ⌊q⌋ ≤ n := by
    have h1 := Int.floor_le_floor hq
    rwa [Int.floor_intCast] at h1
  have hstep : ¬ (q - ⌊q⌋ < 1/2) → ⌊q⌋ + 1 ≤ n := by
    intro hge
    have h2 : (1 : ℚ)/2 ≤ q - ⌊q⌋ := le_of_not_lt hge
    have h3 : ((⌊q⌋ : ℚ)) < (n : ℚ) := by linarith
    have h4 : ⌊q⌋ < n := by exact_mod_cast h3
    omega
  unfold roundHalfEven
  by_cases hA : q - ⌊q⌋ < 1/2
  · rw [if_pos hA]; exact hfl
  · rw [if_neg hA]
    by_cases hB : (1 : ℚ)/2 < q - ⌊q⌋
    · rw [if_pos hB]; exact hstep hA
    · rw [if_neg hB]
      by_cases hC : ⌊q⌋ % 2 = 0
      · rw [if_pos hC]; exact hfl
      · rw [if_neg hC]; exact hstep hA

/-- `roundHalfEven` of a non-negative rational is non-negative. -/
theorem roundHalfEven_nonneg {q : ℚ} (hq : 0 ≤ q) : 0 ≤ roundHalfEven q := by
  have hfl : (0 : ℤ) ≤ ⌊q⌋ := Int.le_floor.mpr (by exact_mod_cast hq)
  unfold roundHalfEven
  by_cases hA : q - ⌊q⌋ < 1/2
  · rw [if_pos hA]; exact hfl
  · rw [if_neg hA]
    by_cases hB : (1 : ℚ)/2 < q - ⌊q⌋
    · rw [if_pos hB]; omega
    · rw [if_neg hB]
      by_cases hC : ⌊q⌋ % 2 = 0
      · rw [if_pos hC]; exact hfl
      · rw [if_neg hC]; omega

/-- Two-decimal rounding keeps values inside the interval [0, 0.95]. -/
theorem round2_bounds {x : ℚ} (h0 : 0 ≤ x) (h1 : x ≤ 95/100) :
    0 ≤ round2 x ∧ round2 x ≤ 95/100 := by
  unfold round2
  constructor
  · have hr : 0 ≤ roundHalfEven (x * 100) := roundHalfEven_nonneg (by linarith)
    have hr2 : (0 : ℚ) ≤ (roundHalfEven (x * 100) : ℚ) := by exact_mod_cast hr
    linarith
  · have hr : roundHalfEven (x * 100) ≤ 95 := roundHalfEven_le (by push_cast; linarith)
    have hr2 : ((roundHalfEven (x * 100) : ℚ)) ≤ 95 := by exact_mod_cast hr
    linarith

/-- Claim C8: for every query and every result list produced by retrieval —
so with every score above the 0.1 threshold both search paths enforce — the
confidence lies in the bounded range 0.0 to 0.95, clamped at the documented
maximum; for an empty result list it equals the fixed floor 0.1. -/
theorem claim_C8 (message : List Char) (results : List RetrievalResult)
    (h : ∀ r ∈ results, (1 : ℚ)/10 < r.score) :
    0 ≤ calcConfidence message results ∧
    calcConfidence message results ≤ 95/100 ∧
    (results = [] → calcConfidence message results = 1/10) := by
  cases results with
  | nil =>
    rw [calcConfidence]
    exact ⟨by norm_num, by norm_num, fun _ => rfl⟩
  | cons top rest =>
    have htop : (1 : ℚ)/10 < top.score := h top (List.mem_cons_self top rest)
    have hqb : 0 ≤ (if questionWords.any (fun w => containsSub (lowerStr message) w)
        then (1 : ℚ)/10 else 0) := by
      split <;> norm_num
    have hdcb : 0 ≤ min (((top :: rest).length : ℚ) * (1/10)) (3/10) := by
      refine le_min ?_ (by norm_num)
      positivity
    have hx0 : 0 ≤ min (top.score +
        min (((top :: rest).length : ℚ) * (1/10)) (3/10) +
        (if questionWords.any (fun w => containsSub (lowerStr message) w) then (1 : ℚ)/10
         else 0)) (95/100) :=
      le_min (by linarith) (by norm_num)
    have hb := round2_bounds hx0 (min_le_right _ _)
    rw [calcConfidence]
    exact ⟨hb.1, hb.2, fun hc => by simp at hc⟩

/-- A sample retrieval result above the score threshold. -/
def sampleResult : RetrievalResult :=
  { text := "the spindle speed is 10000 rpm".toList, metadata := goodDoc.metadata,
    score := 1/2, document_id := 1, chunk_id := 0, exact_matches := 2,
    part_matches := 2 }

/-- Witness for claim C8 at a concrete query and non-empty result list. -/
theorem claim_C8_witness :
    0 ≤ calcConfidence ("how".toList) [sampleResult] ∧
    calcConfidence ("how".toList) [sampleResult] ≤ 95/100 ∧
    ([sampleResult] = ([] : List RetrievalResult) →
      calcConfidence ("how".toList) [sampleResult] = 1/10) :=
  claim_C8 ("how".toList) [sampleResult] (by
    intro r hr
    rw [List.mem_singleton] at hr
    subst hr
    norm_num [sampleResult])

/-- Claim C9: confidence scoring is deterministic — `_calculate_confidence`
reads nothing but its two arguments (ai_service.py lines 542-558 consult no
service state and no randomness), so in this embedding it is a pure
function and two calls with identical arguments yield identical outputs. -/
theorem claim_C9 (m1 m2 : List Char) (r1 r2 : List RetrievalResult)
    (hm : m1 = m2) (hr : r1 = r2) :
    calcConfidence m1 r1 = calcConfidence m2 r2 := by rw [hm, hr]

/-- Witness for claim C9: two identical calls at a concrete input agree. -/
theorem claim_C9_witness :
    calcConfidence ("how".toList) [sampleResult] =
      calcConfidence ("how".toList) [sampleResult] :=
  claim_C9 ("how".toList) ("how".toList) [sampleResult] [sampleResult] rfl rfl

/-- The duplicate-removal loop of `add_document` (ai_service.py lines
177-186): find the first document satisfying `p`, returning its index and
the remaining documents. -/
def removeFirstMatch (p : Document → Bool) : List Document → Option (Nat × List Document)
  | [] => none
  | d :: ds =>
    if p d then some (0, ds)
    else
      match removeFirstMatch p ds with
      | some (i, rest) => some (i + 1, d :: rest)
      | none => none

/-- The store after the duplicate-removal block of `add_document`
(ai_service.py lines 177-186): drop the first document carrying the
filename, and pop the same index from the legacy parallel embedding list
when it is in range. -/
def removeStore (store : Store) (filename : List Char) : Store :=
  match removeFirstMatch (fun d => d.metadata.filename == filename) store.documents with
  | some (i, rest) =>
    { documents := rest,
      embeddings := if i < store.embeddings.length then store.embeddings.eraseIdx i
                    else store.embeddings }
  | none => store

/-- The `doc_entry` built by `add_document` (ai_service.py lines 207-221),
with `docCount` the number of documents present after duplicate removal. -/
def mkEntry (embed : List (List Char) → List Vec) (docCount : Nat)
    (text filename : List Char) : Document :=
  { text := preprocess text, chunks := chunkText (preprocess text),
    metadata := { filename := filename,
                  word_count := (words (preprocess text)).length,
                  char_count := (preprocess text).length,
                  chunk_count := (chunkText (preprocess text)).length },
    id := docCount + 1,
    embeddings := embed (chunkText (preprocess text)) }

/-- Model of `add_document` (ai_service.py lines 164-233) on an initialized
service: reject text that is empty or whose stripped length is below 10;
otherwise remove the first document with the same filename, preprocess and
chunk the text, embed the chunks through the abstract `embed` parameter (an
absent or failing model is `fun _ => []`), and append the new entry with id
`len(documents) + 1`. Saving to disk is I/O outside the model. -/
def addDocument (embed : List (List Char) → List Vec) (store : Store)
    (text filename : List Char) : Bool × Store :=
  if text = [] ∨ (strip text).length < 10 then (false, store)
  else
    (true,
      { documents := (removeStore store filename).documents ++
          [mkEntry embed (removeStore store filename).documents.length text filename],
        embeddings := (removeStore store filename).embeddings })

/-- Repeated ingestion, as the loop of `train_from_documents`
(ai_service.py lines 262-270) performs it. -/
def addMany (embed : List (List Char) → List Vec) :
    Store → List (List Char × List Char) → Store
  | store, [] => store
  | store, tf :: rest => addMany embed (addDocument embed store tf.1 tf.2).2 rest

/-- Claim C7: for every metadata mapping (its filename) and every store
state, ingesting text that is empty, or whose stripped form is shorter than
the minimum meaningful length 10 (an all-whitespace text strips to length
0), returns `false` and leaves the store unchanged: the validation precedes
every mutation, and the function is total, so nothing is raised. -/
theorem claim_C7 (embed : List (List Char) → List Vec) (store : Store)
    (text filename : List Char)
    (h : text = [] ∨ (strip text).length < 10) :
    addDocument embed store text filename = (false, store) := by
  unfold addDocument
  rw [if_pos h]

/-- Witness for claim C7: ingesting an all-whitespace text into an empty
store returns `false` and the store is unchanged. -/
theorem claim_C7_witness :
    addDocument (fun _ => []) { documents := [], embeddings := [] }
      (" ".toList) ("f".toList) =
    (false, { documents := [], embeddings := [] }) :=
  claim_C7 (fun _ => []) { documents := [], embeddings := [] } (" ".toList)
    ("f".toList) (by decide)

/-- `removeFirstMatch` returns `none` exactly when no document matches. -/
theorem removeFirstMatch_none (p : Document → Bool) :
    ∀ l : List Document, removeFirstMatch p l = none ↔ ∀ d ∈ l, ¬ p d = true := by
  intro l
  induction l with
  | nil => simp [removeFirstMatch]
  | cons d ds ih =>
    rw [removeFirstMatch]
    by_cases hd : p d
    · rw [if_pos hd]
      simp [hd]
    · rw [if_neg hd]
      cases hrec : removeFirstMatch p ds with
      | some ir =>
        obtain ⟨i, rest⟩ := ir
        dsimp only
        constructor
        · intro hfalse; exact absurd hfalse (by simp)
        · intro hall
          have hn : removeFirstMatch p ds = none :=
            ih.mpr (fun x hx => hall x (List.mem_cons_of_mem _ hx))
          rw [hrec] at hn
          exact absurd hn (by simp)
      | none =>
        dsimp only
        constructor
        · intro _ x hx
          rcases List.mem_cons.mp hx with rfl | hx
          · exact hd
          · exact ih.mp hrec x hx
        · intro _; rfl

/-- A successful removal splits the match count: exactly one matching
document was removed. -/
theorem removeFirstMatch_countP (p : Document → Bool) :
    ∀ (l rest : List Document) (i : Nat),
      removeFirstMatch p l = some (i, rest) →
      l.countP p = rest.countP p + 1 := by
  intro l
  induction l with
  | nil => intro rest i h; simp [removeFirstMatch] at h
  | cons d ds ih =>
    intro rest i h
    rw [removeFirstMatch] at h
    by_cases hd : p d
    · rw [if_pos hd] at h
      have hinj := Option.some.inj h
      rw [Prod.mk.injEq] at hinj
      rcases hinj with ⟨_, hrest⟩
      subst hrest
      rw [List.countP_cons, if_pos hd]
    · rw [if_neg hd] at h
      cases hrec : removeFirstMatch p ds with
      | none => rw [hrec] at h; simp at h
      | some ir =>
        obtain ⟨j, rest0⟩ := ir
        rw [hrec] at h
        dsimp only at h
        have hinj := Option.some.inj h
        rw [Prod.mk.injEq] at hinj
        rcases hinj with ⟨_, hrest⟩
        subst hrest
        rw [List.countP_cons, List.countP_cons, if_neg hd]
        have hih := ih rest0 j hrec
        omega

/-- After duplicate removal, a store that held at most one document with the
filename holds none. -/
theorem removeStore_countP (store : Store) (filename : List Char)
    (h : store.documents.countP (fun d => d.metadata.filename == filename) ≤ 1) :
    (removeStore store filename).documents.countP
      (fun d => d.metadata.filename == filename) = 0 := by
  unfold removeStore
  cases hrm : removeFirstMatch (fun d => d.metadata.filename == filename) store.documents with
  | none =>
    dsimp only
    rw [List.countP_eq_zero]
    exact (removeFirstMatch_none _ store.documents).mp hrm
  | some ir =>
    obtain ⟨i, rest⟩ := ir
    dsimp only
    have hc := removeFirstMatch_countP _ store.documents rest i hrm
    omega

/-- A successful ingestion into a store satisfying the uniqueness invariant
leaves exactly one document with the filename. -/
theorem addDocument_countP (embed : List (List Char) → List Vec) (store : Store)
    (text fn : List Char)
    (hinv : store.documents.countP (fun d => d.metadata.filename == fn) ≤ 1)
    (hv : ¬ (text = [] ∨ (strip text).length < 10)) :
    ((addDocument embed store text fn).2).documents.countP
      (fun d => d.metadata.filename == fn) = 1 := by
  unfold addDocument
  rw [if_neg hv]
  dsimp only
  rw [List.countP_append, removeStore_countP store fn hinv]
  simp [mkEntry]

/-- Claim C1 (amended): in any store state holding at most one document with
the given filename — the invariant every store reachable through
`add_document` satisfies — two successive successful ingestions under that
filename leave exactly one document with it, and that document's text and
chunks are the ones produced from the second ingestion, the prior entry
having been removed. The counterexample theorem shows the restriction is
needed: a corrupted store already holding two documents with the filename
still holds two after the two ingestions. -/
theorem claim_C1 (embed : List (List Char) → List Vec) (store : Store)
    (t1 t2 fn : List Char)
    (hinv : store.documents.countP (fun d => d.metadata.filename == fn) ≤ 1)
    (h1 : ¬ (t1 = [] ∨ (strip t1).length < 10))
    (h2 : ¬ (t2 = [] ∨ (strip t2).length < 10)) :
    ((addDocument embed (addDocument embed store t1 fn).2 t2 fn).2).documents.countP
        (fun d => d.metadata.filename == fn) = 1 ∧
    ∀ d ∈ ((addDocument embed (addDocument embed store t1 fn).2 t2 fn).2).documents,
      d.metadata.filename = fn →
        d.text = preprocess t2 ∧ d.chunks = chunkText (preprocess t2) := by
  have hs1 := addDocument_countP embed store t1 fn hinv h1
  constructor
  · exact addDocument_countP embed _ t2 fn (le_of_eq hs1) h2
  · intro d hd hdf
    revert hd
    unfold addDocument
    rw [if_neg h2]
    dsimp only
    intro hd
    rcases List.mem_append.mp hd with hd | hd
    · exfalso
      have h0 := removeStore_countP _ fn (le_of_eq hs1)
      rw [List.countP_eq_zero] at h0
      exact h0 d hd (by simp [hdf])
    · rcases List.mem_singleton.mp hd with rfl
      exact ⟨rfl, rfl⟩

/-- A stub document carrying only a filename, used to build a corrupted
store below. -/
def stubDoc (fn : List Char) (n : Nat) : Document :=
  { text := "x".toList, chunks := [],
    metadata := { filename := fn, word_count := 0, char_count := 0, chunk_count := 0 },
    id := n, embeddings := [] }

/-- A store that already violates the filename-uniqueness invariant. -/
def dupStore : Store :=
  { documents := [stubDoc ("f".toList) 1, stubDoc ("f".toList) 2], embeddings := [] }

/-- Counterexample to claim C1 as stated: from a store state already holding
two documents with the filename, ingesting the filename twice leaves two
documents with it, not exactly one — each ingestion removes only the first
match — so the claim fails over truly arbitrary store states. -/
theorem claim_C1_counterexample :
    ((addDocument (fun _ => []) (addDocument (fun _ => []) dupStore
        ("abcdefghijk".toList) ("f".toList)).2
        ("abcdefghijkl".toList) ("f".toList)).2).documents.countP
      (fun d => d.metadata.filename == "f".toList) = 2 := by decide

/-- Witness for claim C1 starting from the empty store: after ingesting the
same filename twice, exactly one document with it remains. -/
theorem claim_C1_witness :
    ((addDocument (fun _ => []) (addDocument (fun _ => [])
        { documents := [], embeddings := [] } ("abcdefghijk".toList)
        ("f".toList)).2 ("abcdefghijkl".toList) ("f".toList)).2).documents.countP
      (fun d => d.metadata.filename == "f".toList) = 1 :=
  (claim_C1 (fun _ => []) { documents := [], embeddings := [] }
    ("abcdefghijk".toList) ("abcdefghijkl".toList) ("f".toList)
    (by decide) (by decide) (by decide)).1

/-- A store whose documents match none of the upcoming filenames is left
untouched by duplicate removal. -/
theorem removeStore_no_match (store : Store) (fn : List Char)
    (h : ∀ d ∈ store.documents, d.metadata.filename ≠ fn) :
    removeStore store fn = store := by
  have hnone : removeFirstMatch (fun d => d.metadata.filename == fn) store.documents = none :=
    (removeFirstMatch_none _ _).mpr (fun d hd => by simp [h d hd])
  unfold removeStore
  rw [hnone]

/-- Sequential ingestion of fresh filenames extends the id sequence: if a
store's ids are `1..n` and the incoming filenames are new and pairwise
distinct, the ids after ingesting them all are `1..n+k`. -/
theorem addMany_ids (embed : List (List Char) → List Vec) :
    ∀ (inputs : List (List Char × List Char)) (store : Store),
      store.documents.map (fun d => d.id) = List.range' 1 store.documents.length →
      (∀ d ∈ store.documents, ∀ tf ∈ inputs, d.metadata.filename ≠ tf.2) →
      (inputs.map Prod.snd).Nodup →
      (∀ tf ∈ inputs, ¬ (tf.1 = [] ∨ (strip tf.1).length < 10)) →
      (addMany embed store inputs).documents.map (fun d => d.id) =
        List.range' 1 (store.documents.length + inputs.length) := by
  intro inputs
  induction inputs with
  | nil =>
    intro store hids _ _ _
    rw [addMany]
    simpa using hids
  | cons tf rest ih =>
    intro store hids hdisj hnd hval
    obtain ⟨t, fn⟩ := tf
    rw [addMany]
    have hvhead : ¬ (t = [] ∨ (strip t).length < 10) :=
      hval (t, fn) (List.mem_cons_self _ _)
    have hrs : removeStore store fn = store :=
      removeStore_no_match store fn
        (fun d hd => hdisj d hd (t, fn) (List.mem_cons_self _ _))
    have hstep : (addDocument embed store t fn).2.documents =
        store.documents ++ [mkEntry embed store.documents.length t fn] := by
      unfold addDocument
      rw [if_neg hvhead, hrs]
    have hlen : (addDocument embed store t fn).2.documents.length =
        store.documents.length + 1 := by
      rw [hstep, List.length_append, List.length_cons, List.length_nil]
    have hids2 : (addDocument embed store t fn).2.documents.map (fun d => d.id) =
        List.range' 1 ((addDocument embed store t fn).2.documents.length) := by
      rw [hstep, List.map_append, hids, List.length_append, List.length_cons,
        List.length_nil]
      have hrc : List.range' 1 (store.documents.length + (0 + 1)) =
          List.range' 1 store.documents.length ++ [1 + 1 * store.documents.length] :=
        List.range'_concat 1 store.documents.length
      rw [hrc]
      simp [mkEntry, Nat.add_comm]
    have hdisj2 : ∀ d ∈ (addDocument embed store t fn).2.documents,
        ∀ tg ∈ rest, d.metadata.filename ≠ tg.2 := by
      intro d hd tg htg
      rw [hstep] at hd
      rcases List.mem_append.mp hd with hd | hd
      · exact hdisj d hd tg (List.mem_cons_of_mem _ htg)
      · rcases List.mem_singleton.mp hd with rfl
        have hfn : fn ∉ rest.map Prod.snd := by
          rw [List.map_cons] at hnd
          exact (List.nodup_cons.mp hnd).1
        intro hcon
        have hfn2 : fn = tg.2 := by simpa [mkEntry] using hcon
        rw [hfn2] at hfn
        exact hfn (List.mem_map_of_mem Prod.snd htg)
    have hout := ih (addDocument embed store t fn).2 hids2 hdisj2
      (by rw [List.map_cons] at hnd; exact (List.nodup_cons.mp hnd).2)
      (fun tg htg => hval tg (List.mem_cons_of_mem _ htg))
    rw [hout, hlen]
    have harith : store.documents.length + 1 + rest.length =
        store.documents.length + (rest.length + 1) := by omega
    rw [harith]
    rfl

/-- Claim C2 (amended): after every sequence of successful ingestions of
pairwise-distinct filenames starting from the empty store, the ids are
exactly the sequence `1..n` — sequential, monotonically increasing and
unique. The claim's further assertion that uniqueness also survives a
filename-keyed replacement is refuted by the counterexample theorem: the new
entry's id is `len(documents) + 1` computed after the removal, which can
duplicate an id still in the store. -/
theorem claim_C2 (embed : List (List Char) → List Vec)
    (inputs : List (List Char × List Char))
    (hnd : (inputs.map Prod.snd).Nodup)
    (hval : ∀ tf ∈ inputs, ¬ (tf.1 = [] ∨ (strip tf.1).length < 10)) :
    (addMany embed { documents := [], embeddings := [] } inputs).documents.map
        (fun d => d.id) = List.range' 1 inputs.length ∧
    ((addMany embed { documents := [], embeddings := [] } inputs).documents.map
        (fun d => d.id)).Nodup := by
  have h := addMany_ids embed inputs { documents := [], embeddings := [] }
    (by simp) (by simp) hnd hval
  simp only [List.length_nil, Nat.zero_add] at h
  refine ⟨h, ?_⟩
  rw [h]
  exact List.nodup_range' 1 inputs.length

/-- Three fresh filenames followed by a replacement of the first: the inputs
of the claim C2 counterexample. -/
def dupIdInputs : List (List Char × List Char) :=
  [("abcdefghijk".toList, "a".toList), ("abcdefghijk".toList, "b".toList),
   ("abcdefghijk".toList, "c".toList), ("abcdefghijkl".toList, "a".toList)]

/-- Counterexample to claim C2 as stated: ingesting filenames a, b, c and
then a again from the empty store yields ids [2, 3, 3] — the replacement
entry reuses id 3 while the document with id 3 is still present, so ids are
not unique after a filename-keyed replacement. -/
theorem claim_C2_counterexample :
    ((addMany (fun _ => []) { documents := [], embeddings := [] }
        dupIdInputs).documents.map (fun d => d.id)) = [2, 3, 3] ∧
    ¬ ((addMany (fun _ => []) { documents := [], embeddings := [] }
        dupIdInputs).documents.map (fun d => d.id)).Nodup :=
  ⟨by decide, by decide⟩

/-- Two fresh filenames, for the claim C2 witness. -/
def freshInputs : List (List Char × List Char) :=
  [("abcdefghijk".toList, "a".toList), ("abcdefghijkl".toList, "b".toList)]

/-- Witness for claim C2 at concrete inputs: two fresh ingestions from the
empty store produce ids `[1, 2]`, which are unique. -/
theorem claim_C2_witness :
    (addMany (fun _ => []) { documents := [], embeddings := [] }
        freshInputs).documents.map (fun d => d.id) =
      List.range' 1 freshInputs.length ∧
    ((addMany (fun _ => []) { documents := [], embeddings := [] }
        freshInputs).documents.map (fun d => d.id)).Nodup :=
  claim_C2 (fun _ => []) freshInputs (by decide) (by decide)
